import Mathlib

/-!
# Verification of the edgekv on-disk record formats (`src/schema.rs`)

Shallow embedding of the two record codecs of the edgekv storage engine:
the Data Record (`DataEntry`) and the Index/Hint Record (`HintEntry`),
together with the CRC-32 checksum utility (`crc_checksum`, as implemented
by the `crc32fast` crate: the standard reflected CRC-32 with polynomial
0xEDB88320, initial value 0xFFFFFFFF and final xor 0xFFFFFFFF).

Machine integers are modelled as `Nat`/`Int`:
* a byte is a `Nat` (a real byte stream carries values `< 256`);
* `u64`/`u32` fields are `Nat`s, `i64` fields are `Int`s; well-formedness
  hypotheses carry the range constraints where they matter.

Streams are `List Nat`; a decoder takes the stream and returns
`Option (record × remaining stream)`.  `Read::read_exact` is modelled by
`readExact` (fails, i.e. `none`, when too few bytes remain).  The source's
`DataEntry::decode` and `HintEntry::decode` drop the `Result` of the
`read_exact` calls that fill the variable-length key/value buffers (no `?`
operator); for a `std::io` reader the default `read_exact` loop then leaves
the available prefix in the buffer, keeps the zero initialisation of the
rest, and drains the cursor.  That behaviour is modelled by `readPadded`.
-/

namespace EdgeKV

/-! ## Big-endian fixed-width integers -/

/-- Big-endian byte encoding of `n` in `w` bytes (`u64::to_be_bytes` is
`toBE 8`, `u32::to_be_bytes` is `toBE 4`); truncates modulo `256 ^ w`. -/
def toBE : Nat → Nat → List Nat
  | 0, _ => []
  | w + 1, n => toBE w (n / 256) ++ [n % 256]

/-- Big-endian byte decoding (`u64::from_be_bytes` / `u32::from_be_bytes`). -/
def beToNat (l : List Nat) : Nat :=
  l.foldl (fun a b => a * 256 + b) 0

/-- Two's-complement representation of an `i64` as an unsigned 64-bit value
(`i64::to_be_bytes` encodes exactly the bytes of this value). -/
def i64ToNat (i : Int) : Nat :=
  (i % (2 ^ 64 : Nat)).toNat

/-- Reinterpret an unsigned 64-bit value as an `i64`
(`i64::from_be_bytes`). -/
def natToI64 (n : Nat) : Int :=
  if n < 2 ^ 63 then (n : Int) else (n : Int) - 2 ^ 64

/-! ## The checksum utility (`crc_checksum`, via `crc32fast::Hasher`) -/

/-- The reflected CRC-32 polynomial 0xEDB88320. -/
def crcPoly : Nat := 0xEDB88320

/-- One bit-step of the reflected CRC-32 update. -/
def crcStep (s : Nat) : Nat :=
  if s % 2 = 1 then (s / 2) ^^^ crcPoly else s / 2

/-- Fold one message byte into the CRC state: xor it in, then run eight
bit-steps. -/
def crcByte (s b : Nat) : Nat :=
  crcStep^[8] (s ^^^ b)

/-- Run the CRC state over a whole message. -/
def crcUpdate (s : Nat) (l : List Nat) : Nat :=
  l.foldl crcByte s

/-- `crc_checksum(payload)`: CRC-32 of a byte sequence, as computed by
`crc32fast::Hasher` (init 0xFFFFFFFF, final xor 0xFFFFFFFF). -/
def crc_checksum (l : List Nat) : Nat :=
  crcUpdate 0xFFFFFFFF l ^^^ 0xFFFFFFFF

/-! ## Streams -/

/-- `read_exact` into an `n`-byte buffer, with the `?` operator: `some`
with the bytes read and the rest of the stream, or `none` when the stream
is too short. -/
def readExact (n : Nat) (l : List Nat) : Option (List Nat × List Nat) :=
  if n ≤ l.length then some (l.take n, l.drop n) else none

/-- `read_exact` into a zero-initialised `n`-byte buffer with the returned
`Result` dropped (the source omits `?` on the key/value reads): on a short
stream the buffer keeps its zero padding and the cursor is drained. -/
def readPadded (n : Nat) (l : List Nat) : List Nat × List Nat :=
  (l.take n ++ List.replicate (n - l.length) 0, l.drop n)

/-- Flip bit `k` (0 = least significant) of the byte at offset `i` of a
byte sequence. -/
def flipBit (l : List Nat) (i k : Nat) : List Nat :=
  l.set i ((l.getD i 0) ^^^ 2 ^ k)

/-! ## Data Records (`DataEntry`) -/

/-- `DataEntry`: one physical entry of the value log. -/
structure DataEntry where
  crc : Nat
  level : Int
  key_size : Nat
  value_size : Nat
  key : List Nat
  value : List Nat
  deriving Repr, DecidableEq

namespace DataEntry

/-- `DataEntry::new(level, key, value)`. -/
def new (level : Int) (key value : List Nat) : DataEntry :=
  { crc := 0
    level := level
    key_size := key.length
    value_size := value.length
    key := key
    value := value }

/-- `DataEntry::encode_content`:
`level ++ key_size ++ value_size ++ key ++ value`, integers big-endian. -/
def encode_content (e : DataEntry) : List Nat :=
  toBE 8 (i64ToNat e.level) ++ toBE 8 e.key_size ++ toBE 8 e.value_size
    ++ e.key ++ e.value

/-- `<DataEntry as Encoder>::encode`: the CRC-32 of the content, then the
content. -/
def encode (e : DataEntry) : List Nat :=
  toBE 4 (crc_checksum e.encode_content) ++ e.encode_content

/-- `DataEntry::check_crc`. -/
def check_crc (e : DataEntry) : Bool :=
  e.crc == crc_checksum e.encode_content

/-- `<DataEntry as Decoder>::decode`.  The four header reads use `?`; the
key and value reads drop their `Result` (see `readPadded`). -/
def decode (l : List Nat) : Option (DataEntry × List Nat) := do
  let (crcB, l) ← readExact 4 l
  let (lvlB, l) ← readExact 8 l
  let (kszB, l) ← readExact 8 l
  let (vszB, l) ← readExact 8 l
  let ksz := beToNat kszB
  let vsz := beToNat vszB
  let (keyB, l) := readPadded ksz l
  let (valB, l) := readPadded vsz l
  some ({ crc := beToNat crcB
          level := natToI64 (beToNat lvlB)
          key_size := ksz
          value_size := vsz
          key := keyB
          value := valB }, l)

/-- The struct invariant of a Data Record (spec §3): sizes match the actual
lengths and fit in `u64`, `level` fits in `i64`, key and value hold
bytes. -/
def Wf (e : DataEntry) : Prop :=
  -(2 ^ 63) ≤ e.level ∧ e.level < 2 ^ 63 ∧
  e.key_size = e.key.length ∧ e.value_size = e.value.length ∧
  e.key.length < 2 ^ 64 ∧ e.value.length < 2 ^ 64 ∧
  (∀ b ∈ e.key, b < 256) ∧ (∀ b ∈ e.value, b < 256)

instance : DecidablePred Wf := fun e => by
  unfold Wf; infer_instance

end DataEntry

/-! ## Index (Hint) Records (`HintEntry`) -/

/-- `HintEntry`: a compact pointer into the value log, or a tombstone. -/
structure HintEntry where
  level : Int
  key_size : Nat
  value_size : Nat
  data_entry_position : Nat
  key : List Nat
  deriving Repr, DecidableEq

namespace HintEntry

/-- `HintEntry::from(entry, position)`. -/
def fromRecord (entry : DataEntry) (position : Nat) : HintEntry :=
  { level := entry.level
    key_size := entry.key_size
    value_size := entry.value_size
    data_entry_position := position
    key := entry.key }

/-- `HintEntry::tombstone(key)`. -/
def tombstone (key : List Nat) : HintEntry :=
  { level := -1
    key_size := key.length
    value_size := 0
    data_entry_position := 0
    key := key }

/-- `HintEntry::is_deleted`. -/
def is_deleted (h : HintEntry) : Bool :=
  decide (h.level < 0) && (h.value_size == 0) && (h.data_entry_position == 0)

/-- `<HintEntry as Encoder>::encode`:
`level ++ key_size ++ value_size ++ data_entry_position ++ key`. -/
def encode (h : HintEntry) : List Nat :=
  toBE 8 (i64ToNat h.level) ++ toBE 8 h.key_size ++ toBE 8 h.value_size
    ++ toBE 8 h.data_entry_position ++ h.key

/-- `<HintEntry as Decoder>::decode`.  The four header reads use `?`; the
key read drops its `Result` (see `readPadded`). -/
def decode (l : List Nat) : Option (HintEntry × List Nat) := do
  let (lvlB, l) ← readExact 8 l
  let (kszB, l) ← readExact 8 l
  let (vszB, l) ← readExact 8 l
  let (posB, l) ← readExact 8 l
  let ksz := beToNat kszB
  let (keyB, l) := readPadded ksz l
  some ({ level := natToI64 (beToNat lvlB)
          key_size := ksz
          value_size := beToNat vszB
          data_entry_position := beToNat posB
          key := keyB }, l)

/-- Well-formedness of a Hint Record: `key_size` matches the key length and
fits in `u64`, `level` fits in `i64`, the position and `value_size` fit in
`u64`. -/
def Wf (h : HintEntry) : Prop :=
  -(2 ^ 63) ≤ h.level ∧ h.level < 2 ^ 63 ∧
  h.key_size = h.key.length ∧ h.key.length < 2 ^ 64 ∧
  h.value_size < 2 ^ 64 ∧ h.data_entry_position < 2 ^ 64

instance : DecidablePred Wf := fun h => by
  unfold Wf; infer_instance

end HintEntry

/-! ## Lemmas: big-endian encoding -/

@[simp] theorem toBE_length (w n : Nat) : (toBE w n).length = w := by
  induction w generalizing n with
  | zero => rfl
  | succ w ih => simp [toBE, ih]

theorem toBE_mem_lt {w n : Nat} : ∀ b ∈ toBE w n, b < 256 := by
  induction w generalizing n with
  | zero => simp [toBE]
  | succ w ih =>
    intro b hb
    simp only [toBE, List.mem_append, List.mem_singleton] at hb
    rcases hb with hb | hb
    · exact ih _ hb
    · subst hb; exact Nat.mod_lt _ (by norm_num)

theorem beToNat_append_singleton (l : List Nat) (b : Nat) :
    beToNat (l ++ [b]) = beToNat l * 256 + b := by
  simp [beToNat, List.foldl_append]

theorem beToNat_toBE {w n : Nat} (h : n < 256 ^ w) : beToNat (toBE w n) = n := by
  induction w generalizing n with
  | zero =>
    simp [toBE, beToNat]
    omega
  | succ w ih =>
    have hdiv : n / 256 < 256 ^ w := by
      rw [Nat.div_lt_iff_lt_mul (by norm_num)]
      calc n < 256 ^ (w + 1) := h
        _ = 256 ^ w * 256 := by ring
    rw [toBE, beToNat_append_singleton, ih hdiv]
    omega

theorem beToNat_lt {l : List Nat} (h : ∀ b ∈ l, b < 256) :
    beToNat l < 256 ^ l.length := by
  induction l using List.reverseRecOn with
  | nil => simp [beToNat]
  | append_singleton l b ih =>
    rw [beToNat_append_singleton]
    have hb : b < 256 := h b (by simp)
    have hl : beToNat l < 256 ^ l.length := ih fun x hx => h x (by simp [hx])
    calc beToNat l * 256 + b < (beToNat l + 1) * 256 := by omega
      _ ≤ 256 ^ l.length * 256 := by
          have : beToNat l + 1 ≤ 256 ^ l.length := hl
          exact Nat.mul_le_mul_right _ this
      _ = 256 ^ (l ++ [b]).length := by simp [Nat.pow_succ]

theorem toBE_beToNat {l : List Nat} {w : Nat} (hw : l.length = w)
    (h : ∀ b ∈ l, b < 256) : toBE w (beToNat l) = l := by
  induction l using List.reverseRecOn generalizing w with
  | nil =>
    subst hw; rfl
  | append_singleton l b ih =>
    subst hw
    have hb : b < 256 := h b (by simp)
    have hl : ∀ x ∈ l, x < 256 := fun x hx => h x (by simp [hx])
    rw [beToNat_append_singleton]
    simp only [List.length_append, List.length_singleton]
    rw [toBE]
    have h1 : (beToNat l * 256 + b) / 256 = beToNat l := by omega
    have h2 : (beToNat l * 256 + b) % 256 = b := by omega
    rw [h1, h2, ih rfl hl]

theorem natToI64_i64ToNat {i : Int} (h1 : -(2 ^ 63) ≤ i) (h2 : i < 2 ^ 63) :
    natToI64 (i64ToNat i) = i := by
  unfold natToI64 i64ToNat
  rcases le_or_lt 0 i with hpos | hneg
  · have : i % (2 ^ 64 : Nat) = i := Int.emod_eq_of_lt hpos (by push_cast; omega)
    rw [this]
    have ht : i.toNat < 2 ^ 63 := by omega
    rw [if_pos ht]
    omega
  · have : i % (2 ^ 64 : Nat) = i + 2 ^ 64 := by push_cast; omega
    rw [this]
    have ht : ¬ (i + 2 ^ 64).toNat < 2 ^ 63 := by omega
    rw [if_neg ht]
    omega

theorem i64ToNat_lt (i : Int) : i64ToNat i < 2 ^ 64 := by
  unfold i64ToNat
  have h : (0 : Int) < (2 ^ 64 : Nat) := by positivity
  have := Int.emod_lt_of_pos i h
  omega

theorem i64ToNat_natToI64 {n : Nat} (h : n < 2 ^ 64) : i64ToNat (natToI64 n) = n := by
  unfold natToI64 i64ToNat
  by_cases hc : n < 2 ^ 63
  · rw [if_pos hc]
    have : (n : Int) % (2 ^ 64 : Nat) = n := Int.emod_eq_of_lt (by omega) (by push_cast; omega)
    rw [this]; omega
  · rw [if_neg hc]
    have : ((n : Int) - 2 ^ 64) % (2 ^ 64 : Nat) = n := by
      rw [Int.sub_emod]
      have h1 : ((2 : Int) ^ 64) % (2 ^ 64 : Nat) = 0 := by norm_num
      have h2 : (n : Int) % (2 ^ 64 : Nat) = n := Int.emod_eq_of_lt (by omega) (by push_cast; omega)
      rw [h1, h2]
      simp only [sub_zero]
      exact Int.emod_eq_of_lt (by omega) (by push_cast; omega)
    rw [this]; omega

/-! ## Lemmas: streams -/

theorem readExact_append {n : Nat} {a : List Nat} (l : List Nat) (h : a.length = n) :
    readExact n (a ++ l) = some (a, l) := by
  subst h
  simp [readExact, List.take_left, List.drop_left]

theorem readPadded_append {n : Nat} {a : List Nat} (l : List Nat) (h : a.length = n) :
    readPadded n (a ++ l) = (a, l) := by
  subst h
  simp [readPadded, List.take_left, List.drop_left]

/-! ## Lemmas: the CRC-32 state machine -/

theorem xor_lt_two_pow {x y n : Nat} (hx : x < 2 ^ n) (hy : y < 2 ^ n) :
    x ^^^ y < 2 ^ n :=
  Nat.bitwise_lt hx hy

theorem crcStep_lt {s : Nat} (h : s < 2 ^ 32) : crcStep s < 2 ^ 32 := by
  unfold crcStep
  split
  · exact xor_lt_two_pow (by omega) (by norm_num [crcPoly])
  · omega

theorem xor_crcPoly_ge {x : Nat} (hx : x < 2 ^ 31) : 2 ^ 31 ≤ x ^^^ crcPoly := by
  by_contra hlt
  push_neg at hlt
  have h1 : (x ^^^ crcPoly).testBit 31 = false := Nat.testBit_eq_false_of_lt hlt
  have h2 : x.testBit 31 = false := Nat.testBit_eq_false_of_lt hx
  have h3 : crcPoly.testBit 31 = true := by decide
  rw [Nat.testBit_xor, h2, h3] at h1
  simp at h1

theorem crcStep_inj {s t : Nat} (hs : s < 2 ^ 32) (ht : t < 2 ^ 32)
    (h : crcStep s = crcStep t) : s = t := by
  unfold crcStep at h
  rcases Nat.mod_two_eq_zero_or_one s with hsp | hsp <;>
    rcases Nat.mod_two_eq_zero_or_one t with htp | htp
  · rw [if_neg (by omega), if_neg (by omega)] at h
    omega
  · rw [if_neg (by omega), if_pos htp] at h
    have := xor_crcPoly_ge (x := t / 2) (by omega)
    omega
  · rw [if_pos hsp, if_neg (by omega)] at h
    have := xor_crcPoly_ge (x := s / 2) (by omega)
    omega
  · rw [if_pos hsp, if_pos htp] at h
    have := Nat.xor_left_inj.mp h
    omega

theorem crcStep_iterate_lt (k : Nat) {s : Nat} (h : s < 2 ^ 32) :
    crcStep^[k] s < 2 ^ 32 := by
  induction k generalizing s with
  | zero => simpa using h
  | succ k ih =>
    rw [Function.iterate_succ_apply]
    exact ih (crcStep_lt h)

theorem crcStep_iterate_inj (k : Nat) {s t : Nat} (hs : s < 2 ^ 32)
    (ht : t < 2 ^ 32) (h : crcStep^[k] s = crcStep^[k] t) : s = t := by
  induction k generalizing s t with
  | zero => simpa using h
  | succ k ih =>
    rw [Function.iterate_succ_apply, Function.iterate_succ_apply] at h
    exact crcStep_inj hs ht (ih (crcStep_lt hs) (crcStep_lt ht) h)

theorem crcByte_lt {s b : Nat} (hs : s < 2 ^ 32) (hb : b < 256) :
    crcByte s b < 2 ^ 32 :=
  crcStep_iterate_lt 8 (xor_lt_two_pow hs (by omega))

theorem crcByte_inj {s t b : Nat} (hs : s < 2 ^ 32) (ht : t < 2 ^ 32)
    (hb : b < 256) (h : crcByte s b = crcByte t b) : s = t := by
  unfold crcByte at h
  have h' := crcStep_iterate_inj 8 (xor_lt_two_pow hs (by omega))
    (xor_lt_two_pow ht (by omega)) h
  exact Nat.xor_left_inj.mp h'

theorem crcByte_ne {s b₁ b₂ : Nat} (hs : s < 2 ^ 32) (hb₁ : b₁ < 256)
    (hb₂ : b₂ < 256) (hne : b₁ ≠ b₂) : crcByte s b₁ ≠ crcByte s b₂ := by
  intro h
  unfold crcByte at h
  have h' := crcStep_iterate_inj 8 (xor_lt_two_pow hs (by omega))
    (xor_lt_two_pow hs (by omega)) h
  exact hne (Nat.xor_right_inj.mp h')

theorem crcUpdate_lt {s : Nat} {l : List Nat} (hs : s < 2 ^ 32)
    (hl : ∀ b ∈ l, b < 256) : crcUpdate s l < 2 ^ 32 := by
  induction l generalizing s with
  | nil => simpa [crcUpdate] using hs
  | cons b l ih =>
    rw [crcUpdate, List.foldl_cons]
    exact ih (crcByte_lt hs (hl b (by simp))) fun x hx => hl x (by simp [hx])

theorem crcUpdate_ne {s t : Nat} {l : List Nat} (hs : s < 2 ^ 32)
    (ht : t < 2 ^ 32) (hl : ∀ b ∈ l, b < 256) (hne : s ≠ t) :
    crcUpdate s l ≠ crcUpdate t l := by
  induction l generalizing s t with
  | nil => simpa [crcUpdate]
  | cons b l ih =>
    rw [crcUpdate, List.foldl_cons, crcUpdate, List.foldl_cons]
    have hb : b < 256 := hl b (by simp)
    refine ih (crcByte_lt hs hb) (crcByte_lt ht hb)
      (fun x hx => hl x (by simp [hx])) ?_
    intro hcontra
    exact hne (crcByte_inj hs ht hb hcontra)

theorem crc_checksum_lt {l : List Nat} (hl : ∀ b ∈ l, b < 256) :
    crc_checksum l < 2 ^ 32 :=
  xor_lt_two_pow (crcUpdate_lt (by norm_num) hl) (by norm_num)

/-- Two byte sequences that agree everywhere except at one position (where
they hold different bytes) have different CRC-32 checksums. -/
theorem crc_checksum_ne_single_diff {pre suf : List Nat} {b b' : Nat}
    (hpre : ∀ x ∈ pre, x < 256) (hsuf : ∀ x ∈ suf, x < 256)
    (hb : b < 256) (hb' : b' < 256) (hne : b ≠ b') :
    crc_checksum (pre ++ b :: suf) ≠ crc_checksum (pre ++ b' :: suf) := by
  unfold crc_checksum crcUpdate
  intro h
  have h' := Nat.xor_left_inj.mp h
  rw [List.foldl_append, List.foldl_append, List.foldl_cons, List.foldl_cons] at h'
  have hs0 : List.foldl crcByte 0xFFFFFFFF pre < 2 ^ 32 :=
    crcUpdate_lt (by norm_num) hpre
  exact crcUpdate_ne (crcByte_lt hs0 hb) (crcByte_lt hs0 hb') hsuf
    (crcByte_ne hs0 hb hb' hne) h'

/-- Changing one byte of a byte sequence changes its CRC-32 checksum. -/
theorem crc_checksum_ne_set {l : List Nat} {i b' : Nat} (hi : i < l.length)
    (hl : ∀ x ∈ l, x < 256) (hb' : b' < 256) (hne : b' ≠ l.getD i 0) :
    crc_checksum (l.set i b') ≠ crc_checksum l := by
  have hset : l.set i b' = l.take i ++ b' :: l.drop (i + 1) :=
    List.set_eq_take_cons_drop b' hi
  have hsplit : l = l.take i ++ l.getD i 0 :: l.drop (i + 1) := by
    conv_lhs => rw [← List.take_append_drop i l]
    rw [List.drop_eq_getElem_cons hi, List.getD_eq_getElem l 0 hi]
  rw [hset]
  conv_rhs => rw [hsplit]
  exact crc_checksum_ne_single_diff
    (fun x hx => hl x (List.mem_of_mem_take hx))
    (fun x hx => hl x (List.mem_of_mem_drop hx))
    hb' (hl _ (by rw [List.getD_eq_getElem l 0 hi]; exact List.getElem_mem hi))
    hne

/-! ## Lemmas: decoding a well-shaped stream -/

/-- `DataEntry.decode` on a stream made of a 4-byte checksum block, three
8-byte integer blocks, a key whose length matches the declared `key_size`,
a value whose length matches the declared `value_size`, and arbitrary
trailing bytes. -/
theorem DataEntry.decode_parts (crcB lvlB kszB vszB key value rest : List Nat)
    (h1 : crcB.length = 4) (h2 : lvlB.length = 8) (h3 : kszB.length = 8)
    (h4 : vszB.length = 8) (hk : beToNat kszB = key.length)
    (hv : beToNat vszB = value.length) :
    DataEntry.decode
      (crcB ++ (lvlB ++ (kszB ++ (vszB ++ (key ++ (value ++ rest)))))) =
      some ({ crc := beToNat crcB
              level := natToI64 (beToNat lvlB)
              key_size := beToNat kszB
              value_size := beToNat vszB
              key := key
              value := value }, rest) := by
  rw [DataEntry.decode]
  rw [readExact_append _ h1]
  simp only [Option.bind_eq_bind, Option.some_bind]
  rw [readExact_append _ h2]
  simp only [Option.some_bind]
  rw [readExact_append _ h3]
  simp only [Option.some_bind]
  rw [readExact_append _ h4]
  simp only [Option.some_bind]
  rw [hk, hv, readPadded_append _ rfl, readPadded_append _ rfl]

/-- `HintEntry.decode` on a stream made of four 8-byte integer blocks, a
key whose length matches the declared `key_size`, and arbitrary trailing
bytes. -/
theorem HintEntry.decode_hint_parts (lvlB kszB vszB posB key rest : List Nat)
    (h1 : lvlB.length = 8) (h2 : kszB.length = 8) (h3 : vszB.length = 8)
    (h4 : posB.length = 8) (hk : beToNat kszB = key.length) :
    HintEntry.decode (lvlB ++ (kszB ++ (vszB ++ (posB ++ (key ++ rest))))) =
      some ({ level := natToI64 (beToNat lvlB)
              key_size := beToNat kszB
              value_size := beToNat vszB
              data_entry_position := beToNat posB
              key := key }, rest) := by
  rw [HintEntry.decode]
  rw [readExact_append _ h1]
  simp only [Option.bind_eq_bind, Option.some_bind]
  rw [readExact_append _ h2]
  simp only [Option.some_bind]
  rw [readExact_append _ h3]
  simp only [Option.some_bind]
  rw [readExact_append _ h4]
  simp only [Option.some_bind]
  rw [hk, readPadded_append _ rfl]

/-! ## Lemmas: round trips -/

theorem DataEntry.encode_content_mem_lt {e : DataEntry}
    (hk : ∀ b ∈ e.key, b < 256) (hv : ∀ b ∈ e.value, b < 256) :
    ∀ b ∈ e.encode_content, b < 256 := by
  intro b hb
  simp only [encode_content, List.append_assoc, List.mem_append] at hb
  rcases hb with hb | hb | hb | hb | hb
  · exact toBE_mem_lt b hb
  · exact toBE_mem_lt b hb
  · exact toBE_mem_lt b hb
  · exact hk b hb
  · exact hv b hb

theorem pow_256_8 : (256 : Nat) ^ 8 = 2 ^ 64 := by norm_num

theorem pow_256_4 : (256 : Nat) ^ 4 = 2 ^ 32 := by norm_num

/-- Decoding a stream that starts with the encoding of a well-formed Data
Record consumes exactly that encoding: it returns the record (with its
`crc` field set to the stored checksum) and the trailing bytes. -/
theorem DataEntry.decode_encode (e : DataEntry) (s : List Nat) (hWf : e.Wf) :
    DataEntry.decode (e.encode ++ s) =
      some ({ e with crc := crc_checksum e.encode_content }, s) := by
  obtain ⟨hl1, hl2, hks, hvs, hklt, hvlt, hkb, hvb⟩ := hWf
  have hcontent : ∀ b ∈ e.encode_content, b < 256 :=
    DataEntry.encode_content_mem_lt hkb hvb
  have hshape : e.encode ++ s =
      toBE 4 (crc_checksum e.encode_content) ++
        (toBE 8 (i64ToNat e.level) ++ (toBE 8 e.key_size ++
          (toBE 8 e.value_size ++ (e.key ++ (e.value ++ s))))) := by
    simp [DataEntry.encode, DataEntry.encode_content, List.append_assoc]
  have hkB : beToNat (toBE 8 e.key_size) = e.key.length := by
    rw [beToNat_toBE (by rw [pow_256_8]; omega)]
    exact hks
  have hvB : beToNat (toBE 8 e.value_size) = e.value.length := by
    rw [beToNat_toBE (by rw [pow_256_8]; omega)]
    exact hvs
  rw [hshape, DataEntry.decode_parts _ _ _ _ _ _ _ (toBE_length _ _)
    (toBE_length _ _) (toBE_length _ _) (toBE_length _ _) hkB hvB]
  have h1 : beToNat (toBE 4 (crc_checksum e.encode_content)) =
      crc_checksum e.encode_content :=
    beToNat_toBE (by rw [pow_256_4]; exact crc_checksum_lt hcontent)
  have h2 : natToI64 (beToNat (toBE 8 (i64ToNat e.level))) = e.level := by
    rw [beToNat_toBE (by rw [pow_256_8]; exact i64ToNat_lt _)]
    exact natToI64_i64ToNat hl1 hl2
  rw [h1, h2, hkB, hvB]
  obtain ⟨crc, level, ksz, vsz, key, value⟩ := e
  simp only at hks hvs
  subst hks hvs
  rfl

/-- Decoding a stream that starts with the encoding of a well-formed Hint
Record consumes exactly that encoding: it returns the record and the
trailing bytes. -/
theorem HintEntry.decode_hint_encode (h : HintEntry) (s : List Nat) (hWf : h.Wf) :
    HintEntry.decode (h.encode ++ s) = some (h, s) := by
  obtain ⟨hl1, hl2, hks, hklt, hvlt, hplt⟩ := hWf
  have hshape : h.encode ++ s =
      toBE 8 (i64ToNat h.level) ++ (toBE 8 h.key_size ++
        (toBE 8 h.value_size ++ (toBE 8 h.data_entry_position ++
          (h.key ++ s)))) := by
    simp [HintEntry.encode, List.append_assoc]
  have hkB : beToNat (toBE 8 h.key_size) = h.key.length := by
    rw [beToNat_toBE (by rw [pow_256_8]; omega)]
    exact hks
  rw [hshape, HintEntry.decode_hint_parts _ _ _ _ _ _ (toBE_length _ _)
    (toBE_length _ _) (toBE_length _ _) (toBE_length _ _) hkB]
  have h2 : natToI64 (beToNat (toBE 8 (i64ToNat h.level))) = h.level := by
    rw [beToNat_toBE (by rw [pow_256_8]; exact i64ToNat_lt _)]
    exact natToI64_i64ToNat hl1 hl2
  have h3 : beToNat (toBE 8 h.value_size) = h.value_size :=
    beToNat_toBE (by rw [pow_256_8]; omega)
  have h4 : beToNat (toBE 8 h.data_entry_position) = h.data_entry_position :=
    beToNat_toBE (by rw [pow_256_8]; omega)
  rw [h2, hkB, h3, h4]
  obtain ⟨level, ksz, vsz, pos, key⟩ := h
  simp only at hks
  subst hks
  rfl

/-! ## Lemmas: single-bit corruption -/

theorem flipBit_length (l : List Nat) (i k : Nat) :
    (flipBit l i k).length = l.length := by
  simp [flipBit]

theorem flipBit_append_right {a : List Nat} (l : List Nat) {i : Nat}
    (k : Nat) (h : a.length ≤ i) :
    flipBit (a ++ l) i k = a ++ flipBit l (i - a.length) k := by
  unfold flipBit
  rw [List.getD_append_right a l 0 i h, List.set_append_right i _ h]

theorem flipBit_append_left {a : List Nat} (l : List Nat) {i : Nat}
    (k : Nat) (h : i < a.length) :
    flipBit (a ++ l) i k = flipBit a i k ++ l := by
  unfold flipBit
  rw [List.getD_append a l 0 i h, List.set_append_left i _ h]

theorem getD_lt_256 {l : List Nat} (hl : ∀ b ∈ l, b < 256) (i : Nat) :
    l.getD i 0 < 256 := by
  by_cases h : i < l.length
  · rw [List.getD_eq_getElem l 0 h]
    exact hl _ (List.getElem_mem h)
  · rw [List.getD_eq_default l 0 (by omega)]
    norm_num

theorem xor_two_pow_lt_256 {x k : Nat} (hx : x < 256) (hk : k < 8) :
    x ^^^ 2 ^ k < 256 := by
  have h1 : x < 2 ^ 8 := by omega
  have h2 : 2 ^ k < 2 ^ 8 := Nat.pow_lt_pow_right (by omega) hk
  have := xor_lt_two_pow h1 h2
  omega

theorem xor_two_pow_ne (x k : Nat) : x ^^^ 2 ^ k ≠ x := by
  intro h
  have h0 : x ^^^ 2 ^ k = x ^^^ 0 := by simpa using h
  have h2 := Nat.xor_right_inj.mp h0
  exact absurd h2 (Nat.pos_iff_ne_zero.mp (Nat.pos_pow_of_pos k (by omega)))

theorem flipBit_mem_lt {l : List Nat} {i k : Nat} (hl : ∀ b ∈ l, b < 256)
    (hk : k < 8) : ∀ b ∈ flipBit l i k, b < 256 := by
  intro b hb
  rcases List.mem_or_eq_of_mem_set hb with h | h
  · exact hl b h
  · subst h
    exact xor_two_pow_lt_256 (getD_lt_256 hl i) hk

theorem DataEntry.encode_content_length (e : DataEntry) :
    e.encode_content.length = 24 + e.key.length + e.value.length := by
  simp [DataEntry.encode_content]
  omega

/-- Decoding the checksum block of a well-formed Data Record followed by
its content with one bit flipped — at a position inside the level block or
inside the key/value payload — succeeds and produces a record whose
re-encoded content is exactly the flipped content and whose stored `crc`
is the checksum of the original content. -/
theorem DataEntry.decode_encode_flip (e : DataEntry) (j k : Nat)
    (hWf : e.Wf) (hk8 : k < 8)
    (hj : j < 8 ∨ (24 ≤ j ∧ j < 24 + e.key.length + e.value.length)) :
    ∃ e' : DataEntry,
      DataEntry.decode (toBE 4 (crc_checksum e.encode_content) ++
          flipBit e.encode_content j k) = some (e', []) ∧
      e'.encode_content = flipBit e.encode_content j k ∧
      e'.crc = crc_checksum e.encode_content := by
  obtain ⟨hl1, hl2, hks, hvs, hklt, hvlt, hkb, hvb⟩ := hWf
  have hcontent : ∀ b ∈ e.encode_content, b < 256 :=
    DataEntry.encode_content_mem_lt hkb hvb
  have hcB : beToNat (toBE 4 (crc_checksum e.encode_content)) =
      crc_checksum e.encode_content :=
    beToNat_toBE (by rw [pow_256_4]; exact crc_checksum_lt hcontent)
  have hkB : beToNat (toBE 8 e.key_size) = e.key.length := by
    rw [beToNat_toBE (by rw [pow_256_8]; omega)]
    exact hks
  have hvB : beToNat (toBE 8 e.value_size) = e.value.length := by
    rw [beToNat_toBE (by rw [pow_256_8]; omega)]
    exact hvs
  rcases hj with hj | ⟨hj1, hj2⟩
  · -- flip inside the 8-byte level block
    have hsplit : e.encode_content =
        toBE 8 (i64ToNat e.level) ++ (toBE 8 e.key_size ++
          (toBE 8 e.value_size ++ (e.key ++ e.value))) := by
      simp [DataEntry.encode_content, List.append_assoc]
    have hflip : flipBit e.encode_content j k =
        flipBit (toBE 8 (i64ToNat e.level)) j k ++ (toBE 8 e.key_size ++
          (toBE 8 e.value_size ++ (e.key ++ e.value))) := by
      rw [hsplit, flipBit_append_left _ k (by simp [hj])]
    have hL'len : (flipBit (toBE 8 (i64ToNat e.level)) j k).length = 8 := by
      rw [flipBit_length, toBE_length]
    have hL'mem : ∀ b ∈ flipBit (toBE 8 (i64ToNat e.level)) j k, b < 256 :=
      flipBit_mem_lt (fun b hb => toBE_mem_lt b hb) hk8
    have hL'lt : beToNat (flipBit (toBE 8 (i64ToNat e.level)) j k) < 2 ^ 64 := by
      have := beToNat_lt hL'mem
      rwa [hL'len, pow_256_8] at this
    have hstream :
        toBE 4 (crc_checksum e.encode_content) ++ flipBit e.encode_content j k =
          toBE 4 (crc_checksum e.encode_content) ++
            (flipBit (toBE 8 (i64ToNat e.level)) j k ++ (toBE 8 e.key_size ++
              (toBE 8 e.value_size ++ (e.key ++ (e.value ++ []))))) := by
      rw [hflip, List.append_nil]
    rw [hstream, DataEntry.decode_parts _ _ _ _ _ _ _ (toBE_length _ _)
      hL'len (toBE_length _ _) (toBE_length _ _) hkB hvB]
    refine ⟨_, rfl, ?_, hcB⟩
    show toBE 8 (i64ToNat (natToI64
        (beToNat (flipBit (toBE 8 (i64ToNat e.level)) j k)))) ++
        toBE 8 (beToNat (toBE 8 e.key_size)) ++
        toBE 8 (beToNat (toBE 8 e.value_size)) ++ e.key ++ e.value = _
    rw [i64ToNat_natToI64 hL'lt, toBE_beToNat hL'len hL'mem,
      beToNat_toBE (by rw [pow_256_8]; omega),
      beToNat_toBE (by rw [pow_256_8]; omega), hflip]
    simp [List.append_assoc]
  · -- flip inside the key/value payload
    have hsplit : e.encode_content =
        (toBE 8 (i64ToNat e.level) ++ toBE 8 e.key_size ++
          toBE 8 e.value_size) ++ (e.key ++ e.value) := by
      simp [DataEntry.encode_content, List.append_assoc]
    have hhdrlen : (toBE 8 (i64ToNat e.level) ++ toBE 8 e.key_size ++
        toBE 8 e.value_size).length = 24 := by
      simp
    have hflip : flipBit e.encode_content j k =
        (toBE 8 (i64ToNat e.level) ++ toBE 8 e.key_size ++
          toBE 8 e.value_size) ++ flipBit (e.key ++ e.value) (j - 24) k := by
      rw [hsplit, flipBit_append_right _ k (by omega), hhdrlen]
    have hkvlen : (flipBit (e.key ++ e.value) (j - 24) k).length =
        e.key.length + e.value.length := by
      rw [flipBit_length, List.length_append]
    have htakelen :
        ((flipBit (e.key ++ e.value) (j - 24) k).take e.key.length).length =
          e.key.length := by
      rw [List.length_take]
      omega
    have hdroplen :
        ((flipBit (e.key ++ e.value) (j - 24) k).drop e.key.length).length =
          e.value.length := by
      rw [List.length_drop, hkvlen]
      omega
    have hstream :
        toBE 4 (crc_checksum e.encode_content) ++ flipBit e.encode_content j k =
          toBE 4 (crc_checksum e.encode_content) ++
            (toBE 8 (i64ToNat e.level) ++ (toBE 8 e.key_size ++
              (toBE 8 e.value_size ++
                ((flipBit (e.key ++ e.value) (j - 24) k).take e.key.length ++
                  ((flipBit (e.key ++ e.value) (j - 24) k).drop e.key.length ++
                    []))))) := by
      rw [hflip, List.append_nil, List.take_append_drop]
      simp [List.append_assoc]
    rw [hstream, DataEntry.decode_parts _ _ _ _ _ _ _ (toBE_length _ _)
      (toBE_length _ _) (toBE_length _ _) (toBE_length _ _)
      (by rw [hkB, htakelen]) (by rw [hvB, hdroplen])]
    refine ⟨_, rfl, ?_, hcB⟩
    show toBE 8 (i64ToNat (natToI64 (beToNat (toBE 8 (i64ToNat e.level))))) ++
        toBE 8 (beToNat (toBE 8 e.key_size)) ++
        toBE 8 (beToNat (toBE 8 e.value_size)) ++ _ ++ _ = _
    rw [beToNat_toBE (by rw [pow_256_8]; exact i64ToNat_lt _),
      natToI64_i64ToNat hl1 hl2,
      beToNat_toBE (by rw [pow_256_8]; omega),
      beToNat_toBE (by rw [pow_256_8]; omega), hflip]
    simp only [List.append_assoc, List.take_append_drop]

/-! ## The claims -/

set_option maxRecDepth 1000000

/-- C1: the claim states that every decode call on a stream that yields
fewer bytes than a declared-length field requires — including the
variable-length key and value fields — fails with a short-read error, and
never returns a record containing a partially filled or zero-padded key or
value.  The code violates this for the variable-length fields: both
decoders drop the `Result` of the key/value `read_exact` calls, so this
theorem evaluates the code at two truncated streams and shows decode
*succeeding* with a zero-padded key.  The first stream is the encoding of
`DataEntry::new(0, [1], [])` truncated to its 28 header bytes (the one key
byte is missing): decode returns a record whose key is the fabricated
`[0]`.  The second is the encoding of `HintEntry::tombstone([7, 8])`
truncated to its 32 header bytes: decode returns key `[0, 0]` instead of
failing. -/
theorem claim_C1_short_read_accepted :
    DataEntry.decode ((DataEntry.new 0 [1] []).encode.take 28) =
      some ({ crc := 1896502567, level := 0, key_size := 1, value_size := 0,
              key := [0], value := [] }, []) ∧
    HintEntry.decode ((HintEntry.tombstone [7, 8]).encode.take 32) =
      some ({ level := -1, key_size := 2, value_size := 0,
              data_entry_position := 0, key := [0, 0] }, []) := by
  constructor <;> decide

/-- C4: for every Data Record, `encode` emits
`checksum(4) ++ level(8) ++ key_size(8) ++ value_size(8) ++ key ++ value`
with all integers big-endian, where the checksum is the CRC-32 digest of
`level ++ key_size ++ value_size ++ key ++ value`; the total length is
`28 + len(key) + len(value)`. -/
theorem claim_C4_data_encode_layout (e : DataEntry) :
    e.encode =
      toBE 4 (crc_checksum (toBE 8 (i64ToNat e.level) ++ toBE 8 e.key_size ++
          toBE 8 e.value_size ++ e.key ++ e.value)) ++
        (toBE 8 (i64ToNat e.level) ++ toBE 8 e.key_size ++
          toBE 8 e.value_size ++ e.key ++ e.value) ∧
    e.encode.length = 28 + e.key.length + e.value.length := by
  refine ⟨rfl, ?_⟩
  simp [DataEntry.encode, DataEntry.encode_content]
  omega

/-- C5: for every Index Record, `encode` emits
`level(8) ++ key_size(8) ++ value_size(8) ++ data_record_position(8) ++ key`
with all integers big-endian — a fixed 32-byte header followed by the key,
total length `32 + len(key)`.  The layout equation fully determines the
output, so in particular no checksum field occurs anywhere in it. -/
theorem claim_C5_hint_encode_layout (h : HintEntry) :
    h.encode =
      toBE 8 (i64ToNat h.level) ++ toBE 8 h.key_size ++ toBE 8 h.value_size ++
        toBE 8 h.data_entry_position ++ h.key ∧
    h.encode.length = 32 + h.key.length := by
  refine ⟨rfl, ?_⟩
  simp [HintEntry.encode]
  omega

/-- C6: `is_deleted` returns true exactly when
`level < 0 ∧ value_size = 0 ∧ data_record_position = 0` (all three
jointly); consequently `is_deleted (tombstone k) = true` for every key `k`
(and `tombstone` sets `level = -1`, `value_size = 0`, `position = 0`,
`key_size = len k`), and `is_deleted (fromRecord r p) = false` whenever
`p > 0`. -/
theorem claim_C6_is_deleted :
    (∀ h : HintEntry, h.is_deleted = true ↔
      (h.level < 0 ∧ h.value_size = 0 ∧ h.data_entry_position = 0)) ∧
    (∀ k : List Nat, (HintEntry.tombstone k).is_deleted = true ∧
      (HintEntry.tombstone k).level = -1 ∧
      (HintEntry.tombstone k).value_size = 0 ∧
      (HintEntry.tombstone k).data_entry_position = 0 ∧
      (HintEntry.tombstone k).key_size = k.length) ∧
    (∀ (r : DataEntry) (p : Nat), 0 < p →
      (HintEntry.fromRecord r p).is_deleted = false) := by
  refine ⟨fun h => ?_, fun k => ?_, fun r p hp => ?_⟩
  · simp [HintEntry.is_deleted, and_assoc]
  · simp [HintEntry.is_deleted, HintEntry.tombstone]
  · simp [HintEntry.is_deleted, HintEntry.fromRecord]
    omega

/-- Witness for C6: the third conjunct at the record
`DataEntry.new 3 [1] [2]` and position `5 > 0`. -/
theorem claim_C6_is_deleted_witness :
    (HintEntry.fromRecord (DataEntry.new 3 [1] [2]) 5).is_deleted = false :=
  claim_C6_is_deleted.2.2 (DataEntry.new 3 [1] [2]) 5 (by norm_num)

/-- C9: there exists a Data Record `r` with `level < 0` and an empty value
such that `is_deleted (fromRecord r 0) = true`: a zero-length-value record
at log offset 0 with negative level is classified as deleted by the
tombstone predicate, even though `fromRecord` builds a genuine pointer
record. -/
theorem claim_C9_misclassified_record :
    ∃ r : DataEntry, r.level < 0 ∧ r.value = [] ∧
      (HintEntry.fromRecord r 0).is_deleted = true :=
  ⟨DataEntry.new (-1) [7] [], by decide⟩

/-- C2: for every `level : i64` and all byte sequences `key` and `value`
(including empty ones), decoding `encode (new level key value)` succeeds,
consumes the whole encoding, and yields a Data Record whose `level`, `key`
and `value` equal the originals, whose `key_size`/`value_size` equal the
lengths, and on which `check_crc` returns true. -/
theorem claim_C2_data_roundtrip (level : Int) (key value : List Nat)
    (hl1 : -(2 ^ 63) ≤ level) (hl2 : level < 2 ^ 63)
    (hk : key.length < 2 ^ 64) (hv : value.length < 2 ^ 64)
    (hkb : ∀ b ∈ key, b < 256) (hvb : ∀ b ∈ value, b < 256) :
    ∃ e : DataEntry,
      DataEntry.decode (DataEntry.new level key value).encode =
        some (e, []) ∧
      e.level = level ∧ e.key = key ∧ e.value = value ∧
      e.key_size = key.length ∧ e.value_size = value.length ∧
      e.check_crc = true := by
  have hWf : (DataEntry.new level key value).Wf :=
    ⟨hl1, hl2, rfl, rfl, hk, hv, hkb, hvb⟩
  have hdec := DataEntry.decode_encode (DataEntry.new level key value) [] hWf
  rw [List.append_nil] at hdec
  refine ⟨_, hdec, rfl, rfl, rfl, rfl, rfl, ?_⟩
  simp [DataEntry.check_crc, DataEntry.encode_content, DataEntry.new]

/-- Witness for C2 at the spec's concrete example:
`construct(0, [2,2,3,54,12], [32,4,1,32,65,78])`. -/
theorem claim_C2_data_roundtrip_witness :
    ∃ e : DataEntry,
      DataEntry.decode
          (DataEntry.new 0 [2, 2, 3, 54, 12] [32, 4, 1, 32, 65, 78]).encode =
        some (e, []) ∧
      e.level = 0 ∧ e.key = [2, 2, 3, 54, 12] ∧
      e.value = [32, 4, 1, 32, 65, 78] ∧
      e.key_size = 5 ∧ e.value_size = 6 ∧ e.check_crc = true :=
  claim_C2_data_roundtrip 0 [2, 2, 3, 54, 12] [32, 4, 1, 32, 65, 78]
    (by norm_num) (by norm_num) (by norm_num) (by norm_num)
    (by decide) (by decide)

/-- C3: decoding `encode (fromRecord r p)` yields an Index Record equal
field-for-field to `fromRecord r p` (same `level`, `key_size`,
`value_size`, `data_record_position`, `key`), and decoding
`encode (tombstone k)` yields `tombstone k` itself; `HintEntry` carries no
value payload at all (see the layout in `claim_C5_hint_encode_layout`). -/
theorem claim_C3_hint_roundtrip :
    (∀ (r : DataEntry) (p : Nat), r.Wf → p < 2 ^ 64 →
      HintEntry.decode (HintEntry.fromRecord r p).encode =
        some (HintEntry.fromRecord r p, [])) ∧
    (∀ k : List Nat, k.length < 2 ^ 64 →
      HintEntry.decode (HintEntry.tombstone k).encode =
        some (HintEntry.tombstone k, [])) := by
  constructor
  · intro r p hWf hp
    obtain ⟨h1, h2, h3, h4, h5, h6, _, _⟩ := hWf
    have hW : (HintEntry.fromRecord r p).Wf :=
      ⟨h1, h2, h3, by simpa [HintEntry.fromRecord, ← h3] using h5,
        by simp [HintEntry.fromRecord]; omega, hp⟩
    have hdec := HintEntry.decode_hint_encode (HintEntry.fromRecord r p) [] hW
    rwa [List.append_nil] at hdec
  · intro k hk
    have hW : (HintEntry.tombstone k).Wf :=
      ⟨by norm_num [HintEntry.tombstone], by norm_num [HintEntry.tombstone],
        rfl, hk, by norm_num [HintEntry.tombstone],
        by norm_num [HintEntry.tombstone]⟩
    have hdec := HintEntry.decode_hint_encode (HintEntry.tombstone k) [] hW
    rwa [List.append_nil] at hdec

/-- Witness for C3: the pointer record built from
`DataEntry::new(2, [9], [8, 7])` at position 3, and the tombstone for key
`[5]`. -/
theorem claim_C3_hint_roundtrip_witness :
    HintEntry.decode
        (HintEntry.fromRecord (DataEntry.new 2 [9] [8, 7]) 3).encode =
      some (HintEntry.fromRecord (DataEntry.new 2 [9] [8, 7]) 3, []) ∧
    HintEntry.decode (HintEntry.tombstone [5]).encode =
      some (HintEntry.tombstone [5], []) :=
  ⟨claim_C3_hint_roundtrip.1 (DataEntry.new 2 [9] [8, 7]) 3 (by decide)
      (by norm_num),
    claim_C3_hint_roundtrip.2 [5] (by norm_num)⟩

/-- C10: decode consumes exactly the bytes of one encoding and no more:
for every well-formed Data Record `e` (its stored `crc` being the checksum
of its content, as `encode` writes it) and every trailing byte sequence
`s`, decoding `e.encode ++ s` yields `e` and leaves the stream cursor at
the start of `s`; likewise for every well-formed Hint Record.  Decoding a
concatenation of encodings therefore returns the records in append
order. -/
theorem claim_C10_decode_consumes_exactly :
    (∀ (e : DataEntry) (s : List Nat), e.Wf →
      e.crc = crc_checksum e.encode_content →
      DataEntry.decode (e.encode ++ s) = some (e, s)) ∧
    (∀ (h : HintEntry) (s : List Nat), h.Wf →
      HintEntry.decode (h.encode ++ s) = some (h, s)) := by
  constructor
  · intro e s hWf hcrc
    rw [DataEntry.decode_encode e s hWf, ← hcrc]
  · exact fun h s hWf => HintEntry.decode_hint_encode h s hWf

/-- Witness for C10: a Data Record with its checksum field set and a
tombstone, each followed by the trailing byte `9`. -/
theorem claim_C10_decode_consumes_exactly_witness :
    DataEntry.decode
        (({ DataEntry.new 0 [1] [2] with
            crc := crc_checksum (DataEntry.new 0 [1] [2]).encode_content
          } : DataEntry).encode ++ [9]) =
      some (({ DataEntry.new 0 [1] [2] with
            crc := crc_checksum (DataEntry.new 0 [1] [2]).encode_content
          } : DataEntry), [9]) ∧
    HintEntry.decode ((HintEntry.tombstone [3]).encode ++ [9]) =
      some (HintEntry.tombstone [3], [9]) :=
  ⟨claim_C10_decode_consumes_exactly.1 _ [9] (by decide) (by decide),
    claim_C10_decode_consumes_exactly.2 _ [9] (by decide)⟩

/-- C8: Data Record decode never fails because of a checksum mismatch.
For every structurally well-formed stream — four header blocks of 4, 8, 8
and 8 bytes followed by at least `key_size + value_size` payload bytes —
decode succeeds whatever the checksum block holds (the checksum bytes
`crcB` are universally quantified with no relation to the content), and
the mismatch is observable only through the separate pure `check_crc`
operation, which compares the stored checksum with the digest of the
re-encoded content and does not modify the record. -/
theorem claim_C8_no_checksum_failure (crcB lvlB kszB vszB rest : List Nat)
    (h1 : crcB.length = 4) (h2 : lvlB.length = 8) (h3 : kszB.length = 8)
    (h4 : vszB.length = 8)
    (hlen : beToNat kszB + beToNat vszB ≤ rest.length) :
    ∃ e : DataEntry,
      DataEntry.decode (crcB ++ (lvlB ++ (kszB ++ (vszB ++ rest)))) =
        some (e, rest.drop (beToNat kszB + beToNat vszB)) ∧
      e.crc = beToNat crcB ∧
      e.level = natToI64 (beToNat lvlB) ∧
      e.key_size = beToNat kszB ∧
      e.value_size = beToNat vszB ∧
      e.key = rest.take (beToNat kszB) ∧
      e.value = (rest.drop (beToNat kszB)).take (beToNat vszB) ∧
      (e.check_crc = true ↔ beToNat crcB = crc_checksum e.encode_content) := by
  have hksp : (rest.take (beToNat kszB)).length = beToNat kszB := by
    rw [List.length_take]
    omega
  have hvsp : ((rest.drop (beToNat kszB)).take (beToNat vszB)).length =
      beToNat vszB := by
    rw [List.length_take, List.length_drop]
    omega
  have hrest : rest = rest.take (beToNat kszB) ++
      ((rest.drop (beToNat kszB)).take (beToNat vszB) ++
        rest.drop (beToNat kszB + beToNat vszB)) := by
    rw [← List.drop_drop]
    rw [List.take_append_drop, List.take_append_drop]
  have hdec := DataEntry.decode_parts crcB lvlB kszB vszB
    (rest.take (beToNat kszB))
    ((rest.drop (beToNat kszB)).take (beToNat vszB))
    (rest.drop (beToNat kszB + beToNat vszB))
    h1 h2 h3 h4 hksp.symm hvsp.symm
  rw [← hrest] at hdec
  refine ⟨_, hdec, rfl, rfl, rfl, rfl, rfl, rfl, ?_⟩
  simp [DataEntry.check_crc]

/-- Witness for C8: a stream whose checksum block is all zeroes (wrong for
its content), declaring `key_size = 1`, `value_size = 1`, with payload
`[42, 43]` and trailing byte `99`; decode succeeds anyway. -/
theorem claim_C8_no_checksum_failure_witness :
    ∃ e : DataEntry,
      DataEntry.decode
          ([0, 0, 0, 0] ++ ([0, 0, 0, 0, 0, 0, 0, 0] ++
            ([0, 0, 0, 0, 0, 0, 0, 1] ++
              ([0, 0, 0, 0, 0, 0, 0, 1] ++ [42, 43, 99])))) =
        some (e, [99]) ∧
      e.crc = 0 ∧
      e.level = natToI64 0 ∧
      e.key_size = 1 ∧
      e.value_size = 1 ∧
      e.key = [42] ∧
      e.value = [43] ∧
      (e.check_crc = true ↔ 0 = crc_checksum e.encode_content) :=
  claim_C8_no_checksum_failure [0, 0, 0, 0] [0, 0, 0, 0, 0, 0, 0, 0]
    [0, 0, 0, 0, 0, 0, 0, 1] [0, 0, 0, 0, 0, 0, 0, 1] [42, 43, 99]
    rfl rfl rfl rfl (by norm_num [beToNat])

/-- Counterexample to C7 as stated.  The record
`DataEntry::new(0, [], [170, 175, 17, 6])` encodes to 32 bytes; offset 27
is the last byte of the `value_size` field, i.e. inside the content
portion (`4 ≤ 27 < 32`), so the claim asserts that flipping its bit 0
makes `check_crc` false after decode.  In fact decode succeeds (reading
`value_size = 5`, so the value comes back zero-padded as
`[170, 175, 17, 6, 0]`) and `check_crc` returns **true**: the CRC-32 of
the re-sliced content collides with the stored checksum. -/
theorem claim_C7_counterexample :
    4 ≤ 27 ∧ 27 < (DataEntry.new 0 [] [170, 175, 17, 6]).encode.length ∧
    DataEntry.decode
        (flipBit (DataEntry.new 0 [] [170, 175, 17, 6]).encode 27 0) =
      some ({ crc := 1069069360, level := 0, key_size := 0, value_size := 5,
              key := [], value := [170, 175, 17, 6, 0] }, []) ∧
    DataEntry.check_crc
        { crc := 1069069360, level := 0, key_size := 0, value_size := 5,
          key := [], value := [170, 175, 17, 6, 0] } = true := by
  refine ⟨by norm_num, by decide, by decide, by decide⟩

/-- C7 (amended): for every well-formed Data Record, flipping any single
bit of the encoded bytes at an offset inside the level block
(`4 ≤ i < 12`) or inside the key/value payload
(`28 ≤ i < 28 + len key + len value`) — that is, anywhere in the content
portion except the `key_size`/`value_size` fields — and then decoding
yields a record on which `check_crc` returns false.  (For flips inside the
size fields the original claim fails, see
`claim_C7_counterexample`.) -/
theorem claim_C7_amended_bitflip_detected (e : DataEntry) (i k : Nat)
    (hWf : e.Wf) (hk8 : k < 8)
    (hi : (4 ≤ i ∧ i < 12) ∨
      (28 ≤ i ∧ i < 28 + e.key.length + e.value.length)) :
    ∃ e' : DataEntry,
      DataEntry.decode (flipBit e.encode i k) = some (e', []) ∧
      e'.check_crc = false := by
  have hcontentb : ∀ b ∈ e.encode_content, b < 256 :=
    DataEntry.encode_content_mem_lt hWf.2.2.2.2.2.2.1 hWf.2.2.2.2.2.2.2
  have h4 : 4 ≤ i := by rcases hi with ⟨h, _⟩ | ⟨h, _⟩ <;> omega
  have hflip : flipBit e.encode i k =
      toBE 4 (crc_checksum e.encode_content) ++
        flipBit e.encode_content (i - 4) k := by
    rw [DataEntry.encode, flipBit_append_right _ k (by rw [toBE_length]; omega),
      toBE_length]
  obtain ⟨e', hdec, hcontent, hcrc⟩ := DataEntry.decode_encode_flip e (i - 4) k
    hWf hk8 (by rcases hi with ⟨h1, h2⟩ | ⟨h1, h2⟩ <;> [left; right] <;> omega)
  refine ⟨e', by rw [hflip]; exact hdec, ?_⟩
  rw [DataEntry.check_crc, hcontent, hcrc]
  refine beq_eq_false_iff_ne.mpr ?_
  have hlen : i - 4 < e.encode_content.length := by
    rw [DataEntry.encode_content_length]
    rcases hi with ⟨h1, h2⟩ | ⟨h1, h2⟩ <;> omega
  exact (crc_checksum_ne_set hlen hcontentb
    (xor_two_pow_lt_256 (getD_lt_256 hcontentb _) hk8)
    (xor_two_pow_ne _ _)).symm

/-- Witness for the amended C7: flipping bit 0 of offset 28 (the first key
byte) of the encoding of `DataEntry::new(0, [1], [2])` is detected. -/
theorem claim_C7_amended_bitflip_detected_witness :
    ∃ e' : DataEntry,
      DataEntry.decode (flipBit (DataEntry.new 0 [1] [2]).encode 28 0) =
        some (e', []) ∧
      e'.check_crc = false :=
  claim_C7_amended_bitflip_detected (DataEntry.new 0 [1] [2]) 28 0
    (by decide) (by norm_num) (by right; norm_num [DataEntry.new])

end EdgeKV
